import Mathlib

/-!
Verification development for the manuscript-scraper code base
(`src/utils/helpers.ts`, `src/constants/index.ts`, `src/services/pdf.service.ts`,
`src/services/manuscript.service.ts`).

The TypeScript sources are shallowly embedded: pure functions become Lean
functions on `String` / `List Char`; JavaScript regular expressions are
embedded as executable matchers with ECMAScript leftmost/greedy semantics;
thrown exceptions become `Except`; effectful browser/download/parse calls are
abstracted as explicit oracle inputs carried in structures.
-/

/-! ## Character classes used by the embedded regular expressions

JavaScript character semantics, restricted to the characters that actually
occur in the source patterns.  `jsFoldCase` models the `/i` flag's
canonicalisation (uppercasing) for ASCII letters and for the Latin-1 accented
vowels `ò ó ô õ ö` that appear in `CODE_PATTERNS`. -/

def jsFoldCase (c : Char) : Char :=
  if 'a' ≤ c ∧ c ≤ 'z' then Char.ofNat (c.toNat - 32)
  else if 'ò' ≤ c ∧ c ≤ 'ö' then Char.ofNat (c.toNat - 32)
  else c

def ciEq (a b : Char) : Bool := jsFoldCase a == jsFoldCase b

def isDigit09 (c : Char) : Bool := decide ('0' ≤ c ∧ c ≤ '9')

def isUpperAZ (c : Char) : Bool := decide ('A' ≤ c ∧ c ≤ 'Z')

def isLowerAZ (c : Char) : Bool := decide ('a' ≤ c ∧ c ≤ 'z')

/-- JavaScript `\w`: `[A-Za-z0-9_]`. -/
def isWordCharJS (c : Char) : Bool := isUpperAZ c || isLowerAZ c || isDigit09 c || c == '_'

/-- JavaScript `\s`: whitespace (the code points relevant to this code base). -/
def isSpaceJS (c : Char) : Bool :=
  c == ' ' || c == '\t' || c == '\n' || c == '\r' || c == '\x0b' || c == '\x0c' ||
  c == ' ' || c == '﻿' || c == ' ' || c == ' '

/-- The class `[A-Z0-9]` without the `/i` flag. -/
def isUpperAlnum (c : Char) : Bool := isUpperAZ c || isDigit09 c

/-- The class `[A-Z0-9]` under the `/i` flag: any ASCII letter or digit. -/
def isAlnumCI (c : Char) : Bool := isUpperAZ c || isLowerAZ c || isDigit09 c

/-- The class `[A-Z]` under the `/i` flag: any ASCII letter. -/
def isAlphaCI (c : Char) : Bool := isUpperAZ c || isLowerAZ c

/-! ## A small matcher embedding for the regular expressions of the source

A `Matcher` consumes a prefix of its input; it returns the list of possible
remainders, in ECMAScript backtracking priority order (greedy alternatives
first).  The head of the list is the match the JavaScript engine reports. -/

abbrev Matcher := List Char → List (List Char)

/-- Case-insensitive literal (the `/i` flag applied to a literal run). -/
def matchLitCI : List Char → List Char → Option (List Char)
  | [], s => some s
  | _ :: _, [] => none
  | c :: cs, d :: ds => if ciEq c d then matchLitCI cs ds else none

def mLitCI (lit : List Char) : Matcher := fun s => (matchLitCI lit s).toList

/-- Case-sensitive literal. -/
def matchLitCS : List Char → List Char → Option (List Char)
  | [], s => some s
  | _ :: _, [] => none
  | c :: cs, d :: ds => if c = d then matchLitCS cs ds else none

def mLitCS (lit : List Char) : Matcher := fun s => (matchLitCS lit s).toList

/-- A single character from a class. -/
def mCls (p : Char → Bool) : Matcher := fun s =>
  match s with
  | [] => []
  | c :: t => if p c then [t] else []

/-- Greedy `+` over a character class: remainders for the longest take first,
down to a take of one character. -/
def mRepGE1 (p : Char → Bool) : Matcher := fun s =>
  let k := (s.takeWhile p).length
  (List.range k).map (fun i => s.drop (k - i))

/-- Greedy `*` over a character class. -/
def mStarCls (p : Char → Bool) : Matcher := fun s =>
  let k := (s.takeWhile p).length
  (List.range (k + 1)).map (fun i => s.drop (k - i))

/-- Greedy bounded repetition `{lo,hi}` over a character class. -/
def mRepRange (p : Char → Bool) (lo hi : Nat) : Matcher := fun s =>
  let k := min (s.takeWhile p).length hi
  if k < lo then [] else (List.range (k - lo + 1)).map (fun i => s.drop (k - i))

/-- Greedy unbounded repetition `{lo,}` over a character class. -/
def mRepAtLeast (p : Char → Bool) (lo : Nat) : Matcher := fun s =>
  let k := (s.takeWhile p).length
  if k < lo then [] else (List.range (k - lo + 1)).map (fun i => s.drop (k - i))

/-- Sequencing; priority order of alternatives is preserved. -/
def mSeq (m1 m2 : Matcher) : Matcher := fun s => (m1 s).flatMap m2

/-- Leftmost match: try the matcher at each start position, left to right.
Returns the matched chunk and the remainder after it. -/
def firstMatchSplit (m : Matcher) : List Char → Option (List Char × List Char)
  | [] => ((m []).head?).map (fun rest => ([], rest))
  | c :: t =>
    match (m (c :: t)).head? with
    | some rest => some ((c :: t).take ((c :: t).length - rest.length), rest)
    | none => firstMatchSplit m t

/-- All non-overlapping leftmost matches, as `String.prototype.match` returns
for a `/g` regex (the array of full matches).  `fuel` bounds the recursion;
`allMatches` supplies enough.  The patterns of this code base never match the
empty string; the empty-match case advances one character as the JavaScript
engine would advance `lastIndex`. -/
def allMatchesGo (m : Matcher) : Nat → List Char → List (List Char)
  | 0, _ => []
  | Nat.succ fuel, s =>
    match firstMatchSplit m s with
    | none => []
    | some (matched, rest) =>
      if matched.isEmpty then
        match rest with
        | [] => [matched]
        | _ :: rt => matched :: allMatchesGo m fuel rt
      else matched :: allMatchesGo m fuel rest

def allMatches (m : Matcher) (s : List Char) : List (List Char) :=
  allMatchesGo m (s.length + 1) s

/-! ## `CODE_PATTERNS` (src/constants/index.ts)

The twelve `/gi` regular expressions, embedded pattern by pattern.  The odd
characters are the mojibake bytes present verbatim in the source:
`ˆ` = U+02C6, `‡` = U+2021, `†` = U+2020, `¿` = U+00BF. -/

def accessTail : Matcher := mSeq (mStarCls isSpaceJS) (mRepGE1 isAlnumCI)

def digoDeAcceso : List Char := "digo de acceso:".data

/-- `/Cˆ‡digo de acceso:\s*([A-Z0-9]+)/gi` -/
def pat1 : Matcher := mSeq (mLitCI ('C' :: 'ˆ' :: '‡' :: digoDeAcceso)) accessTail

/-- `/C\ˆ\‡digo de acceso:\s*([A-Z0-9]+)/gi` (identity escapes). -/
def pat2 : Matcher := pat1

/-- `/C[ˆˆ][‡‡]digo de acceso:\s*([A-Z0-9]+)/gi` -/
def pat3 : Matcher :=
  mSeq (mCls (ciEq 'C')) (mSeq (mCls (fun c => c == 'ˆ'))
    (mSeq (mCls (fun c => c == '‡')) (mSeq (mLitCI digoDeAcceso) accessTail)))

/-- `/C[òóôõöˆ¿][‡†‡]digo de acceso:\s*([A-Z0-9]+)/gi` -/
def pat4 : Matcher :=
  mSeq (mCls (ciEq 'C'))
    (mSeq (mCls (fun c => ['ò', 'ó', 'ô', 'õ', 'ö',
                           'ˆ', '¿'].any (ciEq c)))
      (mSeq (mCls (fun c => c == '‡' || c == '†'))
        (mSeq (mLitCI digoDeAcceso) accessTail)))

/-- `/C[^\w\s]{1,4}digo de acceso:\s*([A-Z0-9]+)/gi` -/
def pat5 : Matcher :=
  mSeq (mCls (ciEq 'C'))
    (mSeq (mRepRange (fun c => !(isWordCharJS c || isSpaceJS c)) 1 4)
      (mSeq (mLitCI digoDeAcceso) accessTail))

/-- `/C\W{1,4}digo de acceso:\s*([A-Z0-9]+)/gi` -/
def pat6 : Matcher :=
  mSeq (mCls (ciEq 'C'))
    (mSeq (mRepRange (fun c => !isWordCharJS c) 1 4)
      (mSeq (mLitCI digoDeAcceso) accessTail))

/-- `/Código de acceso:\s*([A-Z0-9]+)/gi` -/
def pat7 : Matcher := mSeq (mLitCI ('C' :: 'ó' :: digoDeAcceso)) accessTail

/-- `/C[oˆó]digo de acceso:\s*([A-Z0-9]+)/gi` -/
def pat8 : Matcher :=
  mSeq (mCls (ciEq 'C'))
    (mSeq (mCls (fun c => ['o', 'ˆ', 'ó'].any (ciEq c)))
      (mSeq (mLitCI digoDeAcceso) accessTail))

/-- `/codigo de acceso:\s*([A-Z0-9]+)/gi` -/
def pat9 : Matcher := mSeq (mLitCI ('c' :: 'o' :: digoDeAcceso)) accessTail

/-- `/access code:\s*([A-Z0-9]+)/gi` -/
def pat10 : Matcher := mSeq (mLitCI "access code:".data) accessTail

/-- `/c[oó]digo:\s*([A-Z0-9]+)/gi` -/
def pat11 : Matcher :=
  mSeq (mCls (ciEq 'c'))
    (mSeq (mCls (fun c => ['o', 'ó'].any (ciEq c)))
      (mSeq (mLitCI "digo:".data) accessTail))

/-- `/acceso:\s*([A-Z][A-Z0-9]{4,})/gi` -/
def pat12 : Matcher :=
  mSeq (mLitCI "acceso:".data)
    (mSeq (mStarCls isSpaceJS) (mSeq (mCls isAlphaCI) (mRepAtLeast isAlnumCI 4)))

def CODE_PATTERNS : List Matcher :=
  [pat1, pat2, pat3, pat4, pat5, pat6, pat7, pat8, pat9, pat10, pat11, pat12]

/-! ## `searchCodeInText` (src/utils/helpers.ts) -/

/-- The capture of `/([A-Z0-9]+)$/` applied to a string: the maximal trailing
run of `[A-Z0-9]` characters (empty when the regex does not match). -/
def trailingRun (s : List Char) : List Char :=
  (s.reverse.takeWhile isUpperAlnum).reverse

/-- The test `/^[A-Z]+[0-9]+$/.test s`. -/
def upperThenDigits (s : List Char) : Bool :=
  let us := s.takeWhile isUpperAZ
  let rest := s.drop us.length
  !us.isEmpty && !rest.isEmpty && rest.all isDigit09

/-- The loop body of `searchCodeInText` for one pattern's match array
(`match && match.length > 0`, the `isNonEmptyString` guard, the trailing
capture with its `>= 4` check, then the direct `LETTERS+DIGITS+` check). -/
def tryPattern (arr : List (List Char)) : Option (List Char) :=
  match arr with
  | [] => none
  | primerMatch :: _ =>
    if primerMatch.isEmpty then none
    else
      let codigo := trailingRun primerMatch
      if !codigo.isEmpty && decide (4 ≤ codigo.length) then some codigo
      else if decide (4 ≤ primerMatch.length) && upperThenDigits primerMatch then some primerMatch
      else none

def searchLoopPure : List Matcher → List Char → Option (List Char)
  | [], _ => none
  | pat :: pats, texto =>
    match tryPattern (allMatches pat texto) with
    | some c => some c
    | none => searchLoopPure pats texto

def searchCodeList (texto : List Char) : Option (List Char) :=
  searchLoopPure CODE_PATTERNS texto

def searchCodeInText (texto : String) : Option String :=
  (searchCodeList texto.data).map String.mk

/-! ### Stateful view of the pattern matching

The source's `CODE_PATTERNS` are module-level `RegExp` objects with the `/g`
flag, so each owns a mutable `lastIndex`.  `searchCodeInText` reaches them
through `String.prototype.match`, which per ECMAScript sets a global regex's
`lastIndex` to 0 before collecting all matches and leaves it at 0 afterwards;
the match array is computed from position 0 regardless of the stored
`lastIndex`.  The stateful embedding threads the twelve `lastIndex` values
explicitly. -/

def jsStringMatchGlobal (pat : Matcher) (texto : List Char) (_lastIndex : Nat) :
    List (List Char) × Nat :=
  (allMatches pat texto, 0)

def searchLoopS : List Matcher → List Nat → List Char → Option (List Char) × List Nat
  | [], st, _ => (none, st)
  | pat :: pats, st, texto =>
    let res := jsStringMatchGlobal pat texto (st.headD 0)
    match tryPattern res.1 with
    | some c => (some c, res.2 :: st.tail)
    | none =>
      let r := searchLoopS pats st.tail texto
      (r.1, res.2 :: r.2)

def searchCodeInTextS (texto : String) (st : List Nat) : Option String × List Nat :=
  let r := searchLoopS CODE_PATTERNS st texto.data
  (r.1.map String.mk, r.2)

/-! ## `isValidCode` (src/utils/helpers.ts) -/

/-- The test `/^[A-Z0-9]+$/.test code`. -/
def fullUpperAlnum (code : String) : Bool :=
  !code.data.isEmpty && code.data.all isUpperAlnum

def isValidCode (code : String) : Bool :=
  if code = "" then false
  else if code.length < 4 then false
  else if !fullUpperAlnum code then false
  else true

/-! ## `extractPostScriptText` (src/utils/helpers.ts)

`content.match(/\(([^)]+)\)\s+Tj/g)` followed, per matched line, by
`linea.match(/\(([^)]+)\)/)` taking capture group 1 (or the empty string),
joined with single spaces; the empty result is coerced to `null`. -/

def tjPattern : Matcher :=
  mSeq (mCls (fun c => c == '('))
    (mSeq (mRepGE1 (fun c => !(c == ')')))
      (mSeq (mCls (fun c => c == ')'))
        (mSeq (mRepGE1 isSpaceJS) (mLitCS "Tj".data))))

/-- Capture group 1 of the leftmost match of `/\(([^)]+)\)/`. -/
def parenInner : List Char → Option (List Char)
  | [] => none
  | c :: rest =>
    if c == '(' then
      let run := rest.takeWhile (fun d => !(d == ')'))
      if !run.isEmpty && !(rest.drop run.length).isEmpty then some run
      else parenInner rest
    else parenInner rest

def joinWithSpaces : List (List Char) → List Char
  | [] => []
  | [l] => l
  | l :: ls => l ++ ' ' :: joinWithSpaces ls

def extractPostScriptText (content : String) : Option String :=
  let lineasTj := allMatches tjPattern content.data
  if lineasTj.isEmpty then none
  else
    let textoExtraido := joinWithSpaces (lineasTj.map (fun linea => (parenInner linea).getD []))
    if textoExtraido.isEmpty then none else some (String.mk textoExtraido)

/-! ## The document extraction engine: `PDFService.extractCodeFromPDF`
(src/services/pdf.service.ts)

The effectful environment of one call is abstracted as a `PDFInput`:
whether the file exists, its size in bytes, the outcome of `pdfParse` for
each extraction strategy (`none` models a throw or a falsy `data.text`,
`some t` a successful parse returning text `t`), and the raw buffer decoded
as UTF-8 text.  Thrown errors become `Except.error`; the surrounding
`try/catch` that converts them to `null` is `extractCodeFromPDF`. -/

structure PDFInput where
  fileExists : Bool
  fileSize : Nat
  parseText : String → Option String
  bufferText : String

/-- The strategy names of `PDF_EXTRACTION_STRATEGIES` (src/constants); the
parser options are opaque data handed to the external `pdf-parse` call. -/
def PDF_EXTRACTION_STRATEGIES : List String :=
  ["normal", "tolerante", "legacy", "super-tolerante"]

def strategyTexts (inp : PDFInput) : List (Option String) :=
  PDF_EXTRACTION_STRATEGIES.map inp.parseText

/-- The strategy loop: the first strategy whose `data.text` is truthy and
longer than 10 characters wins; a throwing strategy is skipped. -/
def firstUsableText : List (Option String) → Option String
  | [] => none
  | none :: rs => firstUsableText rs
  | some t :: rs => if 10 < t.length then some t else firstUsableText rs

/-- The raw-buffer fallback block (lines 51-78 of pdf.service.ts): search the
reconstructed PostScript text, then the whole buffer text; each candidate
code must also pass `isValidCode`. -/
def rawFallback (textoPlano : String) : Option String :=
  let psCode :=
    match extractPostScriptText textoPlano with
    | some textoPostScript =>
      match searchCodeInText textoPostScript with
      | some codigo => if isValidCode codigo then some codigo else none
      | none => none
    | none => none
  match psCode with
  | some codigo => some codigo
  | none =>
    match searchCodeInText textoPlano with
    | some codigo => if isValidCode codigo then some codigo else none
    | none => none

/-- The body of `extractCodeFromPDF` up to but excluding the outer `catch`. -/
def extractCodeFromPDFExc (inp : PDFInput) : Except String (Option String) :=
  if !inp.fileExists then .error "Archivo PDF no existe"
  else if inp.fileSize < 500 then .error "Archivo PDF demasiado pequeno"
  else
    match firstUsableText (strategyTexts inp) with
    | none =>
      match rawFallback inp.bufferText with
      | some codigo => .ok (some codigo)
      | none => .error "No se pudo extraer texto con ninguna estrategia"
    | some textoExtraido =>
      match searchCodeInText textoExtraido with
      | some codigoEncontrado =>
        if isValidCode codigoEncontrado then .ok (some codigoEncontrado) else .ok none
      | none => .ok none

/-- `extractCodeFromPDF`: the outer `try/catch` turns every thrown error into
a `null` return. -/
def extractCodeFromPDF (inp : PDFInput) : Option String :=
  match extractCodeFromPDFExc inp with
  | .ok v => v
  | .error _ => none

/-! ## `convertRomanToNumber` and `ROMAN_VALUES`
(src/utils/helpers.ts, src/constants/index.ts) -/

/-- The `ROMAN_VALUES` record: a lookup keyed by the seven roman symbols. -/
def ROMAN_VALUES (c : Char) : Option Int :=
  if c = 'I' then some 1
  else if c = 'V' then some 5
  else if c = 'X' then some 10
  else if c = 'L' then some 50
  else if c = 'C' then some 100
  else if c = 'D' then some 500
  else if c = 'M' then some 1000
  else none

def invalidRomanMsg (c : Char) : String :=
  "Caracter romano invalido: ".push c

/-- JavaScript `String.prototype.toUpperCase` on a single character, to the
precision the `ROMAN_VALUES` lookup can observe: ASCII lowercase letters map
up by 32, and U+0131 (dotless ı) maps to I — the only non-ASCII character
whose Unicode default uppercase mapping is one of the seven roman symbols.
Every other character is kept as itself, which the lookup cannot
distinguish from its true uppercase form, since that form is never a roman
symbol (multi-character expansions such as ß → SS also miss the table). -/
def jsToUpper (c : Char) : Char :=
  if c.toNat ≥ 97 ∧ c.toNat ≤ 122 then Char.ofNat (c.toNat - 32)
  else if c = 'ı' then 'I'
  else c

/-- The right-to-left index loop of `convertRomanToNumber`, carrying
`resultado` and `previo`; the list argument is the string reversed.
`ROMAN_VALUES[char.toUpperCase()]` is modelled with `jsToUpper`. -/
def romanLoop : List Char → Int → Int → Except String Int
  | [], resultado, _ => .ok resultado
  | char :: rest, resultado, previo =>
    match ROMAN_VALUES (jsToUpper char) with
    | none => .error (invalidRomanMsg char)
    | some valor =>
      romanLoop rest (if valor < previo then resultado - valor else resultado + valor) valor

def convertRomanToNumber (roman : String) : Except String Int :=
  romanLoop roman.data.reverse 0 0

/-- Spec-shaped total value table for the seven roman symbols
(spec 4.3: standard subtractive evaluation). -/
def romanSymbolValue (c : Char) : Int :=
  if c.toUpper = 'I' then 1
  else if c.toUpper = 'V' then 5
  else if c.toUpper = 'X' then 10
  else if c.toUpper = 'L' then 50
  else if c.toUpper = 'C' then 100
  else if c.toUpper = 'D' then 500
  else 1000

/-- Spec-shaped scan, following the claim's words: scan right to left,
subtract a symbol's value when it is less than the previously seen symbol's
value, add it otherwise. -/
def subtractiveScanGo : List Char → Int → Int → Int
  | [], acc, _ => acc
  | c :: rest, acc, prev =>
    subtractiveScanGo rest
      (if romanSymbolValue c < prev then acc - romanSymbolValue c else acc + romanSymbolValue c)
      (romanSymbolValue c)

def subtractiveValue (s : String) : Int :=
  subtractiveScanGo s.data.reverse 0 0

/-! ## `resolveBinarySearchChallenge` (src/utils/helpers.ts) -/

/-- The target loop, accumulating `contrasena` (`contraseña +=` in source).
`vault` keeps the source type `string[]`; the truthiness guard on the fetched
entry is the `if (caracter)` check. -/
def resolveGo (vault : List String) : List Int → String → String
  | [], contrasena => contrasena
  | target :: ts, contrasena =>
    if 0 ≤ target ∧ target < (vault.length : Int) then
      let caracter := vault.getD target.toNat ""
      if caracter ≠ "" then resolveGo vault ts (contrasena ++ caracter)
      else resolveGo vault ts contrasena
    else resolveGo vault ts contrasena

def resolveBinarySearchChallenge (vault : List String) (targets : List Int) : String :=
  resolveGo vault targets ""

/-- Spec-shaped form of the solver (spec 4.4): the concatenation, in target
order, of the vault entry at each in-range target. -/
def specSolveConcat (vault : List String) (targets : List Int) : String :=
  targets.foldr
    (fun t acc =>
      (if 0 ≤ t ∧ t < (vault.length : Int) then vault.getD t.toNat "" else "") ++ acc)
    ""

/-! ## The item sequencer: `ManuscriptService` (src/services/manuscript.service.ts)

`ManuscriptInfo` mirrors the source record, minus the untyped Playwright
element handle.  The browser, download and PDF collaborators of one item are
abstracted as oracle worlds; `processIndividualManuscript` as a whole is the
oracle `env` of the page loop. -/

inductive ManuscriptType where
  | unlocked
  | locked
  | documentation
deriving DecidableEq, Repr

structure ManuscriptInfo where
  titulo : String
  siglo : String
  sigloNumerico : Int
  estado : ManuscriptType
  indice : Nat
deriving DecidableEq, Repr

/-- The `{ success, extractedCode? }` result of one item. -/
structure ManuscriptResult where
  success : Bool
  extractedCode : Option String
deriving DecidableEq, Repr

/-- JavaScript truthiness of `result.extractedCode` (`undefined` and the
empty string are falsy). -/
def jsTruthyOpt : Option String → Bool
  | none => false
  | some s => !(s == "")

/-- The credential update of the page loop (lines 83-85):
`if (result.success && result.extractedCode) lastExtractedCode = ...`. -/
def stepCredential (lastCode : Option String) (result : ManuscriptResult) : Option String :=
  if result.success && jsTruthyOpt result.extractedCode then result.extractedCode else lastCode

/-- The per-page item loop of `processManuscriptsOnPage`, with
`processIndividualManuscript` abstracted as `env`.  Returns the processed
count and the final credential. -/
def processLoop (env : ManuscriptInfo → Option String → ManuscriptResult) :
    List ManuscriptInfo → Option String → Nat → Nat × Option String
  | [], lastCode, n => (n, lastCode)
  | m :: rest, lastCode, n =>
    let result := env m lastCode
    let n' := if result.success && jsTruthyOpt result.extractedCode then n + 1 else n
    processLoop env rest (stepCredential lastCode result) n'

/-- `sortManuscriptsByChronology` calls `Array.prototype.sort` with the
comparator `(a, b) => a.sigloNumerico - b.sigloNumerico`.  ECMAScript sort is
stable, and for a consistent comparator its output is the unique sorted
stable permutation; insertion sort realises exactly that observable
behaviour. -/
def insertByRank (x : ManuscriptInfo) : List ManuscriptInfo → List ManuscriptInfo
  | [] => [x]
  | y :: ys =>
    if x.sigloNumerico ≤ y.sigloNumerico then x :: y :: ys else y :: insertByRank x ys

def sortManuscriptsByChronology : List ManuscriptInfo → List ManuscriptInfo
  | [] => []
  | m :: rest => insertByRank m (sortManuscriptsByChronology rest)

/-- `processManuscriptsOnPage` (lines 36-92): find, sort chronologically,
then loop.  The discovered items are an explicit input (the DOM scan is the
browser collaborator's). -/
def processManuscriptsOnPage (env : ManuscriptInfo → Option String → ManuscriptResult)
    (manuscriptsInfo : List ManuscriptInfo) (previousCode : Option String) :
    Nat × Option String :=
  if manuscriptsInfo.isEmpty then (0, previousCode)
  else processLoop env (sortManuscriptsByChronology manuscriptsInfo) previousCode 0

/-- Oracle world for one Locked item: whether the code input element exists,
whether the download affordance appears after the unlock click, the download
result (`some filePath` on success), and what `extractCodeFromPDF` yields on
the downloaded file. -/
structure LockedWorld where
  inputFound : Bool
  unlockOk : Bool
  downloadPath : Option String
  pdfCode : Option String

/-- `processLockedManuscript` (lines 295-360).  The second component records
whether an unlock was attempted (the credential fill was reached). -/
def processLockedManuscript (previousCode : Option String) (w : LockedWorld) :
    ManuscriptResult × Bool :=
  match previousCode with
  | none => (⟨false, none⟩, false)
  | some _ =>
    if !w.inputFound then (⟨false, none⟩, false)
    else if w.unlockOk then
      match w.downloadPath with
      | some _ =>
        match w.pdfCode with
        | some codigo =>
          if codigo ≠ "" then (⟨true, some codigo⟩, true) else (⟨true, none⟩, true)
        | none => (⟨true, none⟩, true)
      | none => (⟨true, none⟩, true)
    else (⟨false, none⟩, true)

/-- Oracle world for the unlock-with-API-code phase of a RequiresChallenge
item. -/
structure APIUnlockWorld where
  inputAppears : Bool
  unlockOk : Bool
  downloadPath : Option String
  pdfCode : Option String

/-- `applyAPICodeToManuscript` (lines 447-548): fill the API code, unlock,
download, then prefer the code extracted from the fresh document over the
API code (`if (codigoPDF) ... else ... apiCode`).  The ledger pushes are
bookkeeping only and do not affect the result. -/
def applyAPICodeToManuscript (_inputCode : String) (apiCode : String)
    (w : APIUnlockWorld) : ManuscriptResult :=
  if !w.inputAppears then ⟨false, none⟩
  else if w.unlockOk then
    match w.downloadPath with
    | some _ =>
      match w.pdfCode with
      | some codigoPDF =>
        if codigoPDF ≠ "" then ⟨true, some codigoPDF⟩ else ⟨true, some apiCode⟩
      | none => ⟨true, some apiCode⟩
    | none => ⟨true, none⟩
  else ⟨false, none⟩

/-! ## Theorems -/

theorem roman_value_agree {c : Char} {v : Int}
    (h : ROMAN_VALUES c.toUpper = some v) : romanSymbolValue c = v := by
  unfold ROMAN_VALUES at h
  unfold romanSymbolValue
  split_ifs at h <;> simp_all

theorem roman_value_isSome_of_mem {c : Char}
    (h : c.toUpper ∈ (['I', 'V', 'X', 'L', 'C', 'D', 'M'] : List Char)) :
    (ROMAN_VALUES c.toUpper).isSome := by
  simp only [List.mem_cons, List.not_mem_nil, or_false] at h
  rcases h with h | h | h | h | h | h | h <;> simp [ROMAN_VALUES, h]

theorem jsToUpper_eq_toUpper_of_mem {c : Char}
    (h : c.toUpper ∈ (['I', 'V', 'X', 'L', 'C', 'D', 'M'] : List Char)) :
    jsToUpper c = c.toUpper := by
  by_cases hl : c.toNat ≥ 97 ∧ c.toNat ≤ 122
  · simp only [jsToUpper, Char.toUpper]
    rw [if_pos hl, if_pos hl]
  · have hup : c.toUpper = c := by
      simp only [Char.toUpper]
      rw [if_neg hl]
    by_cases hi : c = 'ı'
    · rw [hup, hi] at h
      exact absurd h (by decide)
    · rw [jsToUpper, if_neg hl, if_neg hi, hup]

theorem romanLoop_ok (l : List Char) (acc prev : Int)
    (h : ∀ c ∈ l, c.toUpper ∈ (['I', 'V', 'X', 'L', 'C', 'D', 'M'] : List Char)) :
    romanLoop l acc prev = .ok (subtractiveScanGo l acc prev) := by
  induction l generalizing acc prev with
  | nil => rfl
  | cons c rest ih =>
    have hmem := h c (List.mem_cons_self c rest)
    have hju := jsToUpper_eq_toUpper_of_mem hmem
    obtain ⟨v, hv⟩ := Option.isSome_iff_exists.1 (roman_value_isSome_of_mem hmem)
    have hval := roman_value_agree hv
    simp only [romanLoop, hju, hv, subtractiveScanGo, hval]
    exact ih _ _ (fun d hd => h d (List.mem_cons_of_mem c hd))

/-- C6: for every string over the roman symbols I,V,X,L,C,D,M
(case-insensitive), `convertRomanToNumber` returns the standard
subtractive-notation value computed by the right-to-left scan that subtracts
a symbol's value when it is less than the previously seen symbol's value and
adds it otherwise; in particular XIV=14, XIX=19, IV=4, MCM=1900. -/
theorem convertRomanToNumber_subtractive :
    (∀ s : String,
        (∀ c ∈ s.data, c.toUpper ∈ (['I', 'V', 'X', 'L', 'C', 'D', 'M'] : List Char)) →
        convertRomanToNumber s = .ok (subtractiveValue s)) ∧
    convertRomanToNumber "XIV" = .ok 14 ∧
    convertRomanToNumber "XIX" = .ok 19 ∧
    convertRomanToNumber "IV" = .ok 4 ∧
    convertRomanToNumber "MCM" = .ok 1900 := by
  refine ⟨fun s hs => ?_, by rfl, by rfl, by rfl, by rfl⟩
  exact romanLoop_ok _ 0 0 (fun c hc => hs c (List.mem_reverse.1 hc))

/-- Witness for C6 at the concrete numeral XIV. -/
theorem convertRomanToNumber_subtractive_witness :
    convertRomanToNumber "XIV" = .ok (subtractiveValue "XIV") :=
  convertRomanToNumber_subtractive.1 "XIV" (by decide)

theorem ROMAN_VALUES_eq_none_iff (c : Char) :
    ROMAN_VALUES c = none ↔ c ∉ (['I', 'V', 'X', 'L', 'C', 'D', 'M'] : List Char) := by
  unfold ROMAN_VALUES
  split_ifs with h1 h2 h3 h4 h5 h6 h7 <;> simp_all

theorem romanLoop_error (l : List Char) (acc prev : Int)
    (h : ∃ c ∈ l, ROMAN_VALUES (jsToUpper c) = none) :
    ∃ c, romanLoop l acc prev = .error (invalidRomanMsg c) ∧
      ROMAN_VALUES (jsToUpper c) = none := by
  induction l generalizing acc prev with
  | nil => simp at h
  | cons c rest ih =>
    cases hv : ROMAN_VALUES (jsToUpper c) with
    | none => exact ⟨c, by simp [romanLoop, hv], hv⟩
    | some v =>
      obtain ⟨d, hd, hdnone⟩ := h
      rcases List.mem_cons.1 hd with rfl | hd
      · exact absurd hdnone (by simp [hv])
      · obtain ⟨e, he, henone⟩ :=
          ih (if v < prev then acc - v else acc + v) v ⟨d, hd, hdnone⟩
        exact ⟨e, by simp [romanLoop, hv, he], henone⟩

/-- C7 counterexample: the dotless ı (U+0131) is not one of I,V,X,L,C,D,M,
in either case, yet `toUpperCase` maps it to I, so `convertRomanToNumber`
returns 1 on the string ı instead of raising any error. -/
theorem convertRomanToNumber_invalid_claim_false :
    ¬ (∀ s : String,
        (∃ c ∈ s.data,
          c ∉ (['I', 'V', 'X', 'L', 'C', 'D', 'M',
                'i', 'v', 'x', 'l', 'c', 'd', 'm'] : List Char)) →
        ∃ e, convertRomanToNumber s = .error e) := by
  intro hclaim
  obtain ⟨e, he⟩ := hclaim "ı" ⟨'ı', by decide, by decide⟩
  rw [(by rfl : convertRomanToNumber "ı" = .ok 1)] at he
  exact Except.noConfusion he

/-- C7 (amended): every string containing a character whose JavaScript
uppercase mapping is not one of the seven roman symbols I,V,X,L,C,D,M makes
`convertRomanToNumber` raise the invalid-numeral error (the thrown
`Caracter romano inválido` exception) rather than return a value; a
character such as the dotless ı, which uppercases to I, is accepted as I
instead. -/
theorem convertRomanToNumber_invalid_error :
    ∀ s : String,
      (∃ c ∈ s.data, jsToUpper c ∉ (['I', 'V', 'X', 'L', 'C', 'D', 'M'] : List Char)) →
      ∃ c, convertRomanToNumber s = .error (invalidRomanMsg c) ∧
        jsToUpper c ∉ (['I', 'V', 'X', 'L', 'C', 'D', 'M'] : List Char) := by
  intro s hs
  obtain ⟨c, hc, hcbad⟩ := hs
  obtain ⟨d, hd, hdnone⟩ :=
    romanLoop_error s.data.reverse 0 0
      ⟨c, List.mem_reverse.2 hc, (ROMAN_VALUES_eq_none_iff _).2 hcbad⟩
  exact ⟨d, hd, (ROMAN_VALUES_eq_none_iff _).1 hdnone⟩

/-- Witness for C7 at the concrete input XZV. -/
theorem convertRomanToNumber_invalid_error_witness :
    ∃ c, convertRomanToNumber "XZV" = .error (invalidRomanMsg c) ∧
      jsToUpper c ∉ (['I', 'V', 'X', 'L', 'C', 'D', 'M'] : List Char) :=
  convertRomanToNumber_invalid_error "XZV" ⟨'Z', by decide, by decide⟩

theorem resolveGo_eq (vault : List String) (ts : List Int) (acc : String) :
    resolveGo vault ts acc = acc ++ specSolveConcat vault ts := by
  induction ts generalizing acc with
  | nil => simp [resolveGo, specSolveConcat]
  | cons t ts ih =>
    simp only [resolveGo, specSolveConcat, List.foldr_cons]
    by_cases h : 0 ≤ t ∧ t < (vault.length : Int)
    · rw [if_pos h, if_pos h]
      by_cases he : vault.getD t.toNat "" = ""
      · rw [if_neg (not_not_intro he), ih, he, String.empty_append]
        rfl
      · rw [if_pos he, ih, String.append_assoc]
        rfl
    · rw [if_neg h, if_neg h, ih, String.empty_append]
      rfl

theorem specSolveConcat_length (vault : List String) (targets : List Int)
    (hv : ∀ s ∈ vault, s.length = 1)
    (ht : ∀ t ∈ targets, 0 ≤ t ∧ t < (vault.length : Int)) :
    (specSolveConcat vault targets).length = targets.length := by
  induction targets with
  | nil => rfl
  | cons t ts ih =>
    obtain ⟨h0, hlt⟩ := ht t (List.mem_cons_self t ts)
    have hn : t.toNat < vault.length := by omega
    have hmem : vault.getD t.toNat "" ∈ vault := by
      rw [List.getD_eq_getElem vault "" hn]
      exact List.getElem_mem hn
    simp only [specSolveConcat, List.foldr_cons]
    rw [if_pos (And.intro h0 hlt), String.length_append, hv _ hmem]
    have hrest := ih (fun u hu => ht u (List.mem_cons_of_mem t hu))
    simp only [specSolveConcat] at hrest
    rw [hrest, List.length_cons]
    omega

/-- C2 counterexample: on the claim's own first example the code returns
HELLL (index 3 of the vault is the second L), not the claimed HELLO. -/
theorem resolveBinarySearchChallenge_hello_counterexample :
    resolveBinarySearchChallenge ["H", "E", "L", "L", "O"] [0, 1, 2, 2, 3] = "HELLL" ∧
    resolveBinarySearchChallenge ["H", "E", "L", "L", "O"] [0, 1, 2, 2, 3] ≠ "HELLO" :=
  ⟨by rfl, by decide⟩

/-- C2 (amended): the solver concatenates `vault[target]` for each in-range
target in order, omitting out-of-range targets; when every vault entry is a
single character (the ChallengeVault shape) and all targets are in range the
result has one character per target; on the claim's examples it returns
HELLL (not HELLO) and AB, and empty targets give the empty string. -/
theorem resolveBinarySearchChallenge_spec :
    (∀ (vault : List String) (targets : List Int),
        resolveBinarySearchChallenge vault targets = specSolveConcat vault targets) ∧
    (∀ (vault : List String) (targets : List Int),
        (∀ s ∈ vault, s.length = 1) →
        (∀ t ∈ targets, 0 ≤ t ∧ t < (vault.length : Int)) →
        (resolveBinarySearchChallenge vault targets).length = targets.length) ∧
    resolveBinarySearchChallenge ["H", "E", "L", "L", "O"] [0, 1, 2, 2, 3] = "HELLL" ∧
    resolveBinarySearchChallenge ["A", "B", "C"] [0, 5, 1] = "AB" ∧
    (∀ vault : List String, resolveBinarySearchChallenge vault [] = "") := by
  have hid : ∀ (vault : List String) (targets : List Int),
      resolveBinarySearchChallenge vault targets = specSolveConcat vault targets := by
    intro vault targets
    rw [resolveBinarySearchChallenge, resolveGo_eq, String.empty_append]
  refine ⟨hid, fun vault targets hv ht => ?_, by rfl, by rfl, fun vault => by rfl⟩
  rw [hid]
  exact specSolveConcat_length vault targets hv ht

/-- Witness for C2 at a concrete single-character vault with in-range
targets. -/
theorem resolveBinarySearchChallenge_spec_witness :
    (resolveBinarySearchChallenge ["H", "E", "L", "L", "O"] [0, 1, 2, 2, 4]).length =
      ([0, 1, 2, 2, 4] : List Int).length :=
  resolveBinarySearchChallenge_spec.2.1 ["H", "E", "L", "L", "O"] [0, 1, 2, 2, 4]
    (by decide) (by decide)

/-- C4: a Locked item reached with a null credential fails by itself — the
item result is unsuccessful, no unlock is attempted — and the page loop
proceeds to the next item with the credential unchanged. -/
theorem processLockedManuscript_noCredential :
    ∀ (w : LockedWorld) (env : ManuscriptInfo → Option String → ManuscriptResult)
      (m : ManuscriptInfo) (rest : List ManuscriptInfo) (n : Nat),
      processLockedManuscript none w = (⟨false, none⟩, false) ∧
      (env m none = (processLockedManuscript none w).1 →
        processLoop env (m :: rest) none n = processLoop env rest none n) := by
  intro w env m rest n
  refine ⟨rfl, fun h => ?_⟩
  simp [processLoop, h, processLockedManuscript, stepCredential, jsTruthyOpt]

/-- Witness for C4 at a concrete world, environment and item list. -/
theorem processLockedManuscript_noCredential_witness :
    processLoop (fun _ _ => ⟨false, none⟩)
        [⟨"Codex A", "XV", 15, ManuscriptType.locked, 0⟩] none 0 =
      processLoop (fun _ _ => ⟨false, none⟩) [] none 0 :=
  (processLockedManuscript_noCredential ⟨true, true, none, none⟩
      (fun _ _ => ⟨false, none⟩) ⟨"Codex A", "XV", 15, ManuscriptType.locked, 0⟩ [] 0).2
    rfl

theorem isValidCode_ne_empty {c : String} (h : isValidCode c = true) : c ≠ "" := by
  intro hc
  subst hc
  simp [isValidCode] at h

/-- C3: once the API code has unlocked a RequiresChallenge item and its
document downloaded, the result code is the document-extracted code when the
extraction engine finds one, and the API code otherwise; the page loop then
overwrites the current credential wholesale with that result, regardless of
the previous credential. -/
theorem applyAPICodeToManuscript_credential :
    ∀ (inputCode apiCode : String) (w : APIUnlockWorld) (fp : String),
      isValidCode apiCode = true →
      w.inputAppears = true → w.unlockOk = true → w.downloadPath = some fp →
      (applyAPICodeToManuscript inputCode apiCode w).success = true ∧
      (∀ c, w.pdfCode = some c → c ≠ "" →
        (applyAPICodeToManuscript inputCode apiCode w).extractedCode = some c) ∧
      (jsTruthyOpt w.pdfCode = false →
        (applyAPICodeToManuscript inputCode apiCode w).extractedCode = some apiCode) ∧
      (∀ prev : Option String,
        stepCredential prev (applyAPICodeToManuscript inputCode apiCode w) =
          (applyAPICodeToManuscript inputCode apiCode w).extractedCode) ∧
      (∀ (env : ManuscriptInfo → Option String → ManuscriptResult)
          (m : ManuscriptInfo) (rest : List ManuscriptInfo) (prev : Option String) (n : Nat),
        env m prev = applyAPICodeToManuscript inputCode apiCode w →
        processLoop env (m :: rest) prev n =
          processLoop env rest ((applyAPICodeToManuscript inputCode apiCode w).extractedCode)
            (n + 1)) := by
  intro inputCode apiCode w fp hvalid hin hun hdl
  have hapi : apiCode ≠ "" := isValidCode_ne_empty hvalid
  have hr : applyAPICodeToManuscript inputCode apiCode w =
      match w.pdfCode with
      | some codigoPDF =>
        if codigoPDF ≠ "" then ⟨true, some codigoPDF⟩ else ⟨true, some apiCode⟩
      | none => ⟨true, some apiCode⟩ := by
    rw [applyAPICodeToManuscript, hin, hun, hdl]
    simp
  have hsucc : (applyAPICodeToManuscript inputCode apiCode w).success = true := by
    rw [hr]; cases w.pdfCode with
    | none => rfl
    | some c => by_cases hc : c = "" <;> simp [hc]
  have htruthy : jsTruthyOpt (applyAPICodeToManuscript inputCode apiCode w).extractedCode
      = true := by
    rw [hr]; cases w.pdfCode with
    | none => simp [jsTruthyOpt, hapi]
    | some c =>
      by_cases hc : c = "" <;> simp [hc, jsTruthyOpt, hapi]
  have hstep : ∀ prev : Option String,
      stepCredential prev (applyAPICodeToManuscript inputCode apiCode w) =
        (applyAPICodeToManuscript inputCode apiCode w).extractedCode := by
    intro prev
    rw [stepCredential, hsucc, htruthy]
    rfl
  refine ⟨hsucc, fun c hc hne => ?_, fun hfalse => ?_, hstep, fun env m rest prev n henv => ?_⟩
  · rw [hr, hc]
    simp [hne]
  · rw [hr]
    cases hp : w.pdfCode with
    | none => rfl
    | some c =>
      rw [hp] at hfalse
      simp only [jsTruthyOpt, Bool.not_eq_true] at hfalse
      simp [(by simpa using hfalse : c = "")]
  · have hcount : ((env m prev).success && jsTruthyOpt (env m prev).extractedCode) = true := by
      rw [henv, hsucc, htruthy]
      rfl
    simp only [processLoop, hcount, if_pos rfl]
    rw [henv, hstep prev]
    congr 1

/-- Witness for C3 at a concrete world where the document yields a fresh
code. -/
theorem applyAPICodeToManuscript_credential_witness :
    (applyAPICodeToManuscript "IN99CODE" "AUREUS1350" ⟨true, true, some "a.pdf", some "NEXT1234"⟩).success = true :=
  (applyAPICodeToManuscript_credential "IN99CODE" "AUREUS1350"
      ⟨true, true, some "a.pdf", some "NEXT1234"⟩ "a.pdf" (by decide) rfl rfl rfl).1

theorem insertByRank_perm (x : ManuscriptInfo) (l : List ManuscriptInfo) :
    List.Perm (insertByRank x l) (x :: l) := by
  induction l with
  | nil => exact List.Perm.refl _
  | cons y ys ih =>
    by_cases h : x.sigloNumerico ≤ y.sigloNumerico
    · rw [insertByRank, if_pos h]
    · rw [insertByRank, if_neg h]
      exact ((ih.cons y).trans (List.Perm.swap x y ys))

theorem mem_insertByRank {x z : ManuscriptInfo} {l : List ManuscriptInfo}
    (h : z ∈ insertByRank x l) : z = x ∨ z ∈ l :=
  List.mem_cons.1 ((insertByRank_perm x l).mem_iff.1 h)

theorem insertByRank_pairwise {x : ManuscriptInfo} {l : List ManuscriptInfo}
    (h : List.Pairwise (fun a b => a.sigloNumerico ≤ b.sigloNumerico) l) :
    List.Pairwise (fun a b => a.sigloNumerico ≤ b.sigloNumerico) (insertByRank x l) := by
  induction l with
  | nil => simp [insertByRank]
  | cons y ys ih =>
    obtain ⟨hy, hys⟩ := List.pairwise_cons.1 h
    by_cases hxy : x.sigloNumerico ≤ y.sigloNumerico
    · rw [insertByRank, if_pos hxy]
      exact List.pairwise_cons.2
        ⟨fun z hz => by
          rcases List.mem_cons.1 hz with rfl | hz
          · exact hxy
          · exact le_trans hxy (hy z hz), h⟩
    · rw [insertByRank, if_neg hxy]
      refine List.pairwise_cons.2 ⟨fun z hz => ?_, ih hys⟩
      rcases mem_insertByRank hz with rfl | hz
      · omega
      · exact hy z hz

theorem filter_insertByRank (x : ManuscriptInfo) (l : List ManuscriptInfo) (r : Int) :
    (insertByRank x l).filter (fun m => m.sigloNumerico == r) =
      if x.sigloNumerico == r then x :: l.filter (fun m => m.sigloNumerico == r)
      else l.filter (fun m => m.sigloNumerico == r) := by
  induction l with
  | nil =>
    by_cases hx : x.sigloNumerico = r <;>
      simp [insertByRank, List.filter_cons, hx, beq_iff_eq]
  | cons y ys ih =>
    by_cases hxy : x.sigloNumerico ≤ y.sigloNumerico
    · rw [insertByRank, if_pos hxy]
      by_cases hx : x.sigloNumerico = r <;> simp [List.filter_cons, hx, beq_iff_eq]
    · rw [insertByRank, if_neg hxy]
      by_cases hx : x.sigloNumerico = r
      · have hy : ¬(y.sigloNumerico = r) := by omega
        simp [List.filter_cons, ih, hx, hy, beq_iff_eq]
      · by_cases hy : y.sigloNumerico = r <;>
          simp [List.filter_cons, ih, hx, hy, beq_iff_eq]

theorem sortManuscriptsByChronology_perm (ms : List ManuscriptInfo) :
    List.Perm (sortManuscriptsByChronology ms) ms := by
  induction ms with
  | nil => exact List.Perm.refl _
  | cons m rest ih =>
    exact (insertByRank_perm m (sortManuscriptsByChronology rest)).trans (ih.cons m)

/-- C8: before processing, the discovered items are reordered by ascending
century rank with a stable sort — equal-rank items keep their discovery
order (their rank-filtered subsequences are unchanged) — and the page loop
then runs over exactly this chronological order. -/
theorem sortManuscriptsByChronology_stable_sorted :
    ∀ ms : List ManuscriptInfo,
      List.Pairwise (fun a b => a.sigloNumerico ≤ b.sigloNumerico)
        (sortManuscriptsByChronology ms) ∧
      List.Perm (sortManuscriptsByChronology ms) ms ∧
      (∀ r : Int,
        (sortManuscriptsByChronology ms).filter (fun m => m.sigloNumerico == r) =
          ms.filter (fun m => m.sigloNumerico == r)) ∧
      (∀ (env : ManuscriptInfo → Option String → ManuscriptResult) (prev : Option String),
        ms ≠ [] →
        processManuscriptsOnPage env ms prev =
          processLoop env (sortManuscriptsByChronology ms) prev 0) := by
  intro ms
  refine ⟨?_, sortManuscriptsByChronology_perm ms, ?_, fun env prev hne => ?_⟩
  · induction ms with
    | nil => simp [sortManuscriptsByChronology]
    | cons m rest ih => exact insertByRank_pairwise ih
  · intro r
    induction ms with
    | nil => rfl
    | cons m rest ih =>
      rw [sortManuscriptsByChronology, filter_insertByRank, ih]
      by_cases hm : m.sigloNumerico = r <;> simp [List.filter_cons, hm]
  · rw [processManuscriptsOnPage, if_neg (by simpa using hne)]

/-- Witness for C8 at a concrete two-item page in reverse chronological
display order. -/
theorem sortManuscriptsByChronology_stable_sorted_witness :
    processManuscriptsOnPage (fun _ _ => ⟨false, none⟩)
        [⟨"Codex A", "XV", 15, ManuscriptType.unlocked, 0⟩,
         ⟨"Codex B", "XIV", 14, ManuscriptType.locked, 1⟩] none =
      processLoop (fun _ _ => ⟨false, none⟩)
        (sortManuscriptsByChronology
          [⟨"Codex A", "XV", 15, ManuscriptType.unlocked, 0⟩,
           ⟨"Codex B", "XIV", 14, ManuscriptType.locked, 1⟩]) none 0 :=
  (sortManuscriptsByChronology_stable_sorted
      [⟨"Codex A", "XV", 15, ManuscriptType.unlocked, 0⟩,
       ⟨"Codex B", "XIV", 14, ManuscriptType.locked, 1⟩]).2.2.2
    (fun _ _ => ⟨false, none⟩) none (by decide)

theorem searchLoopS_fst (pats : List Matcher) (st : List Nat) (texto : List Char) :
    (searchLoopS pats st texto).1 = searchLoopPure pats texto := by
  induction pats generalizing st with
  | nil => rfl
  | cons pat pats ih =>
    simp only [searchLoopS, searchLoopPure, jsStringMatchGlobal]
    cases tryPattern (allMatches pat texto) with
    | some c => rfl
    | none => exact ih st.tail

/-- C9: the Pattern Matcher is deterministic and stateless — whatever the
stored `lastIndex` values of the twelve global regexes are, a call yields
the same result, so two consecutive calls on the same text agree, and the
result coincides with the pure function. -/
theorem searchCodeInText_deterministic :
    ∀ (texto : String) (st : List Nat),
      (searchCodeInTextS texto ((searchCodeInTextS texto st).2)).1 =
        (searchCodeInTextS texto st).1 ∧
      (searchCodeInTextS texto st).1 = (searchCodeInText texto) := by
  intro texto st
  have h : ∀ st' : List Nat, (searchCodeInTextS texto st').1 = searchCodeInText texto := by
    intro st'
    simp only [searchCodeInTextS, searchCodeInText, searchCodeList, searchLoopS_fst]
  exact ⟨(h _).trans (h st).symm, h st⟩

theorem trailingRun_all (s : List Char) : ∀ c ∈ trailingRun s, isUpperAlnum c = true := by
  intro c hc
  exact List.mem_takeWhile_imp (List.mem_reverse.1 hc)

theorem upperThenDigits_all {s : List Char} (h : upperThenDigits s = true) :
    ∀ c ∈ s, isUpperAlnum c = true := by
  intro c hc
  simp only [upperThenDigits, Bool.and_eq_true, Bool.not_eq_true] at h
  obtain ⟨⟨-, -⟩, hdig⟩ := h
  set us := s.takeWhile isUpperAZ with hus
  obtain ⟨t, ht⟩ := List.takeWhile_prefix (p := isUpperAZ) (l := s)
  rw [← hus] at ht
  have hdrop : s.drop us.length = t := by
    rw [← ht, List.drop_left]
  rw [← ht] at hc
  rcases List.mem_append.1 hc with hc | hc
  · rw [hus] at hc
    simp [isUpperAlnum, List.mem_takeWhile_imp hc]
  · rw [hdrop] at hdig
    simp [isUpperAlnum, List.all_eq_true.1 hdig c hc]

theorem tryPattern_class {arr : List (List Char)} {l : List Char}
    (h : tryPattern arr = some l) :
    4 ≤ l.length ∧ ∀ c ∈ l, isUpperAlnum c = true := by
  rcases arr with - | ⟨primerMatch, rest⟩
  · exact absurd h (by simp [tryPattern])
  · simp only [tryPattern] at h
    split_ifs at h with hne h1 h2
    · obtain rfl : trailingRun primerMatch = l := Option.some.inj h
      simp only [Bool.and_eq_true, decide_eq_true_eq] at h1
      exact ⟨h1.2, trailingRun_all primerMatch⟩
    · obtain rfl : primerMatch = l := Option.some.inj h
      simp only [Bool.and_eq_true, decide_eq_true_eq] at h2
      exact ⟨h2.1, upperThenDigits_all h2.2⟩

theorem searchLoopPure_class (pats : List Matcher) (texto : List Char) (l : List Char)
    (h : searchLoopPure pats texto = some l) :
    4 ≤ l.length ∧ ∀ c ∈ l, isUpperAlnum c = true := by
  induction pats with
  | nil => exact absurd h (by simp [searchLoopPure])
  | cons pat pats ih =>
    rw [searchLoopPure] at h
    cases ht : tryPattern (allMatches pat texto) with
    | some c =>
      rw [ht] at h
      obtain rfl : c = l := Option.some.inj h
      exact tryPattern_class ht
    | none =>
      rw [ht] at h
      exact ih h

/-- C10: every non-null result of `searchCodeInText` matches
`^[A-Z0-9]{4,}$` and therefore passes `isValidCode` — the downstream
validity re-checks can never reject a matcher result. -/
theorem searchCodeInText_valid_code :
    ∀ (texto c : String), searchCodeInText texto = some c →
      (4 ≤ c.length ∧ c.data.all isUpperAlnum = true) ∧ isValidCode c = true := by
  intro texto c h
  simp only [searchCodeInText, Option.map_eq_some'] at h
  obtain ⟨l, hl, rfl⟩ := h
  obtain ⟨hlen, hall⟩ := searchLoopPure_class CODE_PATTERNS texto.data l hl
  have hdata : (String.mk l).data = l := rfl
  have hlength : (String.mk l).length = l.length := rfl
  have hne : String.mk l ≠ "" := by
    intro he
    have : l = ([] : List Char) := congrArg String.data he
    simp [this] at hlen
  refine ⟨⟨by rw [hlength]; exact hlen, by rw [hdata]; exact List.all_eq_true.2 hall⟩, ?_⟩
  rw [isValidCode, if_neg hne, if_neg (by rw [hlength]; omega)]
  have hfull : fullUpperAlnum (String.mk l) = true := by
    rw [fullUpperAlnum, hdata]
    have : ¬l.isEmpty := by
      cases l with
      | nil => simp at hlen
      | cons a t => simp
    simp [this, List.all_eq_true.2 hall]
  rw [hfull]
  rfl

/-- Witness for C10 at a concrete text matched by the bare `acceso:`
fallback pattern. -/
theorem searchCodeInText_valid_code_witness :
    (4 ≤ ("ABCDE" : String).length ∧ ("ABCDE" : String).data.all isUpperAlnum = true) ∧
      isValidCode "ABCDE" = true :=
  searchCodeInText_valid_code "acceso: ABCDE" "ABCDE" (by rfl)

/-- C5: the extraction engine never lets an internal error escape — a
missing file, an undersized buffer, or any thrown error inside the body
(including the all-strategies-failed throw) results in a null return, never
an exception. -/
theorem extractCodeFromPDF_null_on_error :
    ∀ inp : PDFInput,
      (inp.fileExists = false → extractCodeFromPDF inp = none) ∧
      (inp.fileSize < 500 → extractCodeFromPDF inp = none) ∧
      (∀ e, extractCodeFromPDFExc inp = .error e → extractCodeFromPDF inp = none) ∧
      (firstUsableText (strategyTexts inp) = none →
        rawFallback inp.bufferText = none → extractCodeFromPDF inp = none) := by
  intro inp
  have herr : ∀ e, extractCodeFromPDFExc inp = .error e → extractCodeFromPDF inp = none := by
    intro e he
    rw [extractCodeFromPDF, he]
  refine ⟨fun hex => ?_, fun hsz => ?_, herr, fun hstrat hraw => ?_⟩
  · exact herr _ (by rw [extractCodeFromPDFExc, hex]; rfl)
  · by_cases hex : inp.fileExists
    · exact herr _ (by rw [extractCodeFromPDFExc, hex, if_pos hsz]; rfl)
    · exact herr _ (by rw [extractCodeFromPDFExc, eq_false_of_ne_true hex]; rfl)
  · by_cases hex : inp.fileExists
    · by_cases hsz : inp.fileSize < 500
      · exact herr _ (by rw [extractCodeFromPDFExc, hex, if_pos hsz]; rfl)
      · refine herr "No se pudo extraer texto con ninguna estrategia" ?_
        rw [extractCodeFromPDFExc, hex]
        simp only [Bool.not_true, Bool.false_eq_true, if_false]
        rw [if_neg hsz, hstrat, hraw]
    · exact herr _ (by rw [extractCodeFromPDFExc, eq_false_of_ne_true hex]; rfl)

/-- Witness for C5 at concrete erroring inputs. -/
theorem extractCodeFromPDF_null_on_error_witness :
    extractCodeFromPDF ⟨false, 1000, fun _ => none, ""⟩ = none ∧
    extractCodeFromPDF ⟨true, 120, fun _ => none, ""⟩ = none :=
  ⟨(extractCodeFromPDF_null_on_error ⟨false, 1000, fun _ => none, ""⟩).1 rfl,
   (extractCodeFromPDF_null_on_error ⟨true, 120, fun _ => none, ""⟩).2.1 (by decide)⟩

def c1Input : PDFInput :=
  ⟨true, 1000, fun _ => some "sin ningun dato util aqui",
   "(Codigo de acceso: ABCD1234) Tj"⟩

/-- C1 counterexample: an input whose strategies produce usable text in
which the Pattern Matcher finds nothing, while the raw buffer holds a
PostScript-recoverable code.  The claim says the engine then falls back to
the raw-buffer path; the code returns null without consulting the buffer. -/
theorem extractCodeFromPDF_fallback_claim_false :
    ¬ (∀ inp : PDFInput, inp.fileExists = true → 500 ≤ inp.fileSize →
        (firstUsableText (strategyTexts inp) = none ∨
          ∃ t, firstUsableText (strategyTexts inp) = some t ∧ searchCodeInText t = none) →
        extractCodeFromPDF inp = rawFallback inp.bufferText) := by
  intro hclaim
  have h := hclaim c1Input rfl (by decide)
    (Or.inr ⟨"sin ningun dato util aqui", by rfl, by rfl⟩)
  have hlhs : extractCodeFromPDF c1Input = none := by rfl
  have hrhs : rawFallback c1Input.bufferText = some "ABCD1234" := by rfl
  rw [hlhs, hrhs] at h
  exact Option.noConfusion h

/-- C1 (amended): the raw-buffer fallback — PostScript parenthesised
literals joined with spaces and re-matched, then the whole buffer matched —
runs exactly when no strategy produced usable text; when a strategy produced
usable text but the matcher found no code in it, the engine returns null
without consulting the raw buffer. -/
theorem extractCodeFromPDF_fallback_amended :
    ∀ inp : PDFInput, inp.fileExists = true → 500 ≤ inp.fileSize →
      (firstUsableText (strategyTexts inp) = none →
        extractCodeFromPDF inp = rawFallback inp.bufferText) ∧
      (∀ t, firstUsableText (strategyTexts inp) = some t → searchCodeInText t = none →
        extractCodeFromPDF inp = none) := by
  intro inp hex hsz
  constructor
  · intro hstrat
    rw [extractCodeFromPDF, extractCodeFromPDFExc, hex]
    simp only [Bool.not_true, Bool.false_eq_true, if_false]
    rw [if_neg (by omega), hstrat]
    cases hraw : rawFallback inp.bufferText with
    | none => rfl
    | some c => rfl
  · intro t hstrat hsearch
    have hbody : extractCodeFromPDFExc inp = .ok none := by
      rw [extractCodeFromPDFExc, hex]
      simp only [Bool.not_true, Bool.false_eq_true, if_false]
      rw [if_neg (by omega), hstrat]
      show (match searchCodeInText t with
            | some codigoEncontrado =>
              if isValidCode codigoEncontrado = true then Except.ok (some codigoEncontrado)
              else Except.ok (none : Option String)
            | none => Except.ok none) = Except.ok none
      rw [hsearch]
    rw [extractCodeFromPDF, hbody]

/-- Witness for C1's amended theorem: all strategies fail, so the engine
recovers the code from the PostScript literals of the raw buffer. -/
theorem extractCodeFromPDF_fallback_amended_witness :
    extractCodeFromPDF ⟨true, 1000, fun _ => none, "(Codigo de acceso: ABCD1234) Tj"⟩ =
      rawFallback "(Codigo de acceso: ABCD1234) Tj" :=
  (extractCodeFromPDF_fallback_amended
      ⟨true, 1000, fun _ => none, "(Codigo de acceso: ABCD1234) Tj"⟩ rfl (by decide)).1
    (by rfl)
